import Mathlib

/-! Verification development for the RELION pipeliner dependency graph
declared in `src/pipeliner.h`.  The header defines the data model (`Node`,
`Process`, `PipeLine`, the type and status constants) and declares the
operations on the graph; the operation bodies are not part of the sources,
so each operation is modelled from the specification document, as marked
on its definition. -/

namespace Pipeliner

/-- Node type tag `NODE_MOVIE` from `pipeliner.h`. -/
def NODE_MOVIE : Int := 0

/-- Node type tag `NODE_MIC` from `pipeliner.h`. -/
def NODE_MIC : Int := 1

/-- Node type tag `NODE_MIC_COORD` from `pipeliner.h`. -/
def NODE_MIC_COORD : Int := 4

/-- Process type tag `PROC_IMPORT` from `pipeliner.h`. -/
def PROC_IMPORT : Int := 1

/-- Process type tag `PROC_AUTOPICK` from `pipeliner.h`. -/
def PROC_AUTOPICK : Int := 5

/-- Process status `PROC_RUNNING` from `pipeliner.h`. -/
def PROC_RUNNING : Int := 0

/-- Process status `PROC_SCHEDULED` from `pipeliner.h`. -/
def PROC_SCHEDULED : Int := 1

/-- Process status `PROC_FINISHED` from `pipeliner.h`. -/
def PROC_FINISHED : Int := 2

/-- Process status `PROC_CANCELLED` from `pipeliner.h`. -/
def PROC_CANCELLED : Int := 3

/-- The `Node` class of `pipeliner.h`: a named data artifact with a type tag,
the list of processes consuming it (`inputForProcessList`) and the handle of
the process that produced it (`outputFromProcess`, `-1` when none).
Process handles inside `inputForProcessList` are positions in the pipeline's
process list, hence modelled as `Nat`; `outputFromProcess` is kept as `Int`
because the source uses `-1` as the "no producer" sentinel. -/
structure Node where
  name : String
  type : Int
  inputForProcessList : List Nat
  outputFromProcess : Int
deriving DecidableEq, Repr

/-- The `Node(std::string _name, int _type)` constructor of `pipeliner.h`
(lines 63-68): it stores the name and type, leaves the vector
`inputForProcessList` default-constructed (empty) and sets
`outputFromProcess = -1`. -/
def Node.make (nm : String) (t : Int) : Node :=
  { name := nm, type := t, inputForProcessList := [], outputFromProcess := -1 }

/-- The `Process` class of `pipeliner.h`: a named job with a type tag, a
status, and the node handles of its inputs and outputs. -/
structure Process where
  name : String
  type : Int
  status : Int
  inputNodeList : List Nat
  outputNodeList : List Nat
deriving DecidableEq, Repr

/-- The `Process(std::string _name, int _type, int _status)` constructor of
`pipeliner.h` (lines 128-133): name, type and status are stored, the two
node-handle vectors are default-constructed (empty). -/
def Process.make (nm : String) (t st : Int) : Process :=
  { name := nm, type := t, status := st, inputNodeList := [], outputNodeList := [] }

/-- The `PipeLine` class of `pipeliner.h`: a display name plus the two flat
entity collections, addressed by position. -/
structure PipeLine where
  name : String
  nodeList : List Node
  processList : List Process
deriving DecidableEq, Repr

/-- The `PipeLine()` constructor of `pipeliner.h`: name `"default"`, both
collections empty. -/
def PipeLine.empty : PipeLine :=
  { name := "default", nodeList := [], processList := [] }

/-- Error kinds of the specification's section 7. -/
inductive PipeErr where
  | NotFound
  | DuplicateName
  | ProducerConflict
  | CorruptPersistedState
deriving DecidableEq, Repr

/-- Position of the first node with the given name, if any. -/
def lookupNodeIdx (p : PipeLine) (nm : String) : Option Nat :=
  p.nodeList.findIdx? (fun n => n.name = nm)

/-- Modelled from the spec: `findNodeByName` (declared `pipeliner.h` line
196) returns the handle of the node with the given name, or `-1` when there
is none. -/
def findNodeByName (p : PipeLine) (nm : String) : Int :=
  match lookupNodeIdx p nm with
  | some i => (i : Int)
  | none => -1

/-- Position of the first process with the given name, if any. -/
def lookupProcessIdx (p : PipeLine) (nm : String) : Option Nat :=
  p.processList.findIdx? (fun pr => pr.name = nm)

/-- Modelled from the spec: `findProcessByName` (declared `pipeliner.h` line
197) returns the handle of the process with the given name, or `-1` when
there is none. -/
def findProcessByName (p : PipeLine) (nm : String) : Int :=
  match lookupProcessIdx p nm with
  | some i => (i : Int)
  | none => -1

/-- Update the entry at a position of a list in place; out-of-range
positions leave the list unchanged. -/
def updateAt (l : List α) (i : Nat) (f : α → α) : List α :=
  match l.get? i with
  | some a => l.set i (f a)
  | none => l

/-- Modelled from the spec: `addNode` (declared `pipeliner.h` line 187), the
single dedup chokepoint used by both edge declarations.  It looks the node
up by name first and only appends a new entry on a miss; it returns the
handle of the existing or new entry. -/
def addNode (p : PipeLine) (n : Node) : PipeLine × Nat :=
  match lookupNodeIdx p n.name with
  | some i => (p, i)
  | none => ({ p with nodeList := p.nodeList ++ [n] }, p.nodeList.length)

/-- Modelled from the spec: `addNewInputEdge` (declared `pipeliner.h` line
178), the spec's `declareInputEdge`.  The node is reused or created through
`addNode`; the consumer is appended to the node's `inputForProcessList`
(a no-op when already present, making the operation idempotent) and the node
handle is appended to the consumer's `inputNodeList`. -/
def addNewInputEdge (p : PipeLine) (n : Node) (input_for_process : Nat) : PipeLine :=
  let res := addNode p n
  match res.1.nodeList.get? res.2 with
  | none => res.1
  | some nd =>
    if input_for_process ∈ nd.inputForProcessList then res.1
    else
      let nd2 := { nd with inputForProcessList := nd.inputForProcessList ++ [input_for_process] }
      let p2 := { res.1 with nodeList := res.1.nodeList.set res.2 nd2 }
      let addIn := fun (pr : Process) => { pr with inputNodeList := pr.inputNodeList ++ [res.2] }
      { p2 with processList := updateAt p2.processList input_for_process addIn }

/-- Modelled from the spec: `addNewOutputEdge` (declared `pipeliner.h` line
184), the spec's `declareOutputEdge`.  The node is reused or created through
`addNode`; when it already has a producer different from the given process
the call is a `ProducerConflict` and the graph is returned unchanged,
otherwise `outputFromProcess` is set to the process and the node handle is
appended to the process's `outputNodeList`. -/
def addNewOutputEdge (p : PipeLine) (output_from_process : Nat) (n : Node) :
    PipeLine × Option PipeErr :=
  let res := addNode p n
  match res.1.nodeList.get? res.2 with
  | none => (res.1, none)
  | some nd =>
    if nd.outputFromProcess ≠ -1 ∧ nd.outputFromProcess ≠ (output_from_process : Int) then
      (p, some PipeErr.ProducerConflict)
    else
      let nd2 := { nd with outputFromProcess := (output_from_process : Int) }
      let p2 := { res.1 with nodeList := res.1.nodeList.set res.2 nd2 }
      let addOut := fun (pr : Process) => { pr with outputNodeList := pr.outputNodeList ++ [res.2] }
      ({ p2 with processList := updateAt p2.processList output_from_process addOut }, none)

/-- Modelled from the spec: `addNewProcess` (declared `pipeliner.h` line
190).  A process whose name is not yet registered is appended; a duplicate
name is rejected with `DuplicateName` and no mutation unless `do_overwrite`
is set, in which case the existing entry keeps its handle, name and type and
has its status and edge lists replaced in place. -/
def addNewProcess (p : PipeLine) (pr : Process) (do_overwrite : Bool) :
    PipeLine × Except PipeErr Nat :=
  match lookupProcessIdx p pr.name with
  | none =>
    ({ p with processList := p.processList ++ [pr] }, Except.ok p.processList.length)
  | some i =>
    if do_overwrite then
      ({ p with processList := updateAt p.processList i (fun old =>
        { old with status := pr.status, inputNodeList := pr.inputNodeList,
                   outputNodeList := pr.outputNodeList }) }, Except.ok i)
    else (p, Except.error PipeErr.DuplicateName)

/-- An edge-declaration call, used to state the claim that holds for every
sequence of such calls. -/
inductive EdgeOp where
  | declInput (n : Node) (input_for_process : Nat)
  | declOutput (output_from_process : Nat) (n : Node)
deriving Repr

/-- Apply one edge-declaration call; a failed output declaration leaves the
graph unchanged. -/
def applyEdgeOp (p : PipeLine) (op : EdgeOp) : PipeLine :=
  match op with
  | EdgeOp.declInput n q => addNewInputEdge p n q
  | EdgeOp.declOutput q n => (addNewOutputEdge p q n).1

/-- Run a sequence of edge-declaration calls from the empty pipeline. -/
def runEdgeOps (ops : List EdgeOp) : PipeLine :=
  ops.foldl applyEdgeOp PipeLine.empty

/-- Output-node handles of the process at a position (empty when the
position is not live). -/
def outputIdxsOf (p : PipeLine) (i : Nat) : List Nat :=
  match p.processList.get? i with
  | some pr => pr.outputNodeList
  | none => []

/-- Consumer-process handles of the node at a position, restricted to live
process positions (empty when the node position is not live). -/
def consumerIdxsOf (p : PipeLine) (j : Nat) : List Nat :=
  match p.nodeList.get? j with
  | some nd => nd.inputForProcessList.filter (fun q => q < p.processList.length)
  | none => []

/-- Consumers of the output nodes of one process, as a finite set. -/
def consumersOfOutputs (p : PipeLine) (i : Nat) : Finset Nat :=
  (outputIdxsOf p i).toFinset.biUnion (fun j => (consumerIdxsOf p j).toFinset)

/-- One step of the cascade closure: add every process that consumes an
output node of a process already marked for deletion. -/
def cascadeStep (p : PipeLine) (s : Finset Nat) : Finset Nat :=
  s ∪ s.biUnion (fun i => consumersOfOutputs p i)

/-- Modelled from the spec: the set of processes deleted by a recursive
`deleteProcess` call, namely the closure of the seed process under "consumes
an output of a marked process", computed by iterating `cascadeStep` often
enough to reach its fixed point. -/
def cascadeSet (p : PipeLine) (ipos : Nat) : Finset Nat :=
  Nat.iterate (cascadeStep p) p.processList.length {ipos}

/-- The set of processes removed by `deleteProcess`: only the given process
when `recursive` is false, its cascade closure otherwise. -/
def delProcSet (p : PipeLine) (ipos : Nat) (recursive : Bool) : Finset Nat :=
  if recursive then cascadeSet p ipos else {ipos}

/-- The set of nodes removed by `deleteProcess`: the output nodes of every
removed process. -/
def delNodeSet (p : PipeLine) (delP : Finset Nat) : Finset Nat :=
  delP.biUnion (fun i => (outputIdxsOf p i).toFinset)

/-- Number of positions among `k, k+1, …, k+j-1` that are not marked as
deleted. -/
def countKept (del : Nat → Bool) : Nat → Nat → Nat
  | _, 0 => 0
  | k, j + 1 => (if del k then 0 else 1) + countKept del (k + 1) j

/-- New position of a surviving entry after the entries in `del` have been
dropped: the number of surviving positions below it. -/
def remapIdx (del : Finset Nat) (i : Nat) : Nat :=
  countKept (fun m => decide (m ∈ del)) 0 i

/-- Remap one stored handle during compaction: handles of removed or dead
entries are dropped, surviving handles are renumbered. -/
def fixHandle (del : Finset Nat) (len : Nat) (h : Nat) : Option Nat :=
  if h < len ∧ h ∉ del then some (remapIdx del h) else none

/-- Remap a producer handle during compaction: `-1` and handles of removed
or dead processes become `-1`, surviving handles are renumbered. -/
def fixProducer (del : Finset Nat) (len : Nat) (q : Int) : Int :=
  if 0 ≤ q ∧ q.toNat < len ∧ q.toNat ∉ del then (remapIdx del q.toNat : Int) else -1

/-- Keep the entries of a list whose position is not marked as deleted,
transforming each kept entry; `k` is the position of the head. -/
def keepMap (del : Nat → Bool) (t : α → β) : Nat → List α → List β
  | _, [] => []
  | k, a :: l => if del k then keepMap del t (k + 1) l else t a :: keepMap del t (k + 1) l

/-- Compact a node entry surviving deletion: consumer handles of removed
processes are dropped and the rest renumbered, the producer handle is
renumbered or reset to `-1`. -/
def compactNode (delP : Finset Nat) (pLen : Nat) (nd : Node) : Node :=
  { nd with inputForProcessList := nd.inputForProcessList.filterMap (fixHandle delP pLen),
            outputFromProcess := fixProducer delP pLen nd.outputFromProcess }

/-- Compact a process entry surviving deletion: node handles of removed
nodes are dropped and the rest renumbered. -/
def compactProcess (delN : Finset Nat) (nLen : Nat) (pr : Process) : Process :=
  { pr with inputNodeList := pr.inputNodeList.filterMap (fixHandle delN nLen),
            outputNodeList := pr.outputNodeList.filterMap (fixHandle delN nLen) }

/-- Modelled from the spec: the single atomic re-indexing pass of the
deletion engine.  The entries marked in `delN`/`delP` are dropped, every
surviving entry keeps its order, and every stored handle is filtered and
renumbered to the compacted positions in one uniform pass. -/
def compact (p : PipeLine) (delN delP : Finset Nat) : PipeLine :=
  { name := p.name,
    nodeList := keepMap (fun j => decide (j ∈ delN)) (compactNode delP p.processList.length)
      0 p.nodeList,
    processList := keepMap (fun i => decide (i ∈ delP)) (compactProcess delN p.nodeList.length)
      0 p.processList }

/-- Modelled from the spec: `deleteProcess` (declared `pipeliner.h` line
193).  A dead handle is a no-op; otherwise the process (with, recursively,
every process consuming an output of a removed process when `recursive` is
set) and the output nodes of all removed processes are dropped and the whole
graph is renumbered in one compaction pass. -/
def deleteProcess (p : PipeLine) (ipos : Nat) (recursive : Bool) : PipeLine :=
  if ipos < p.processList.length then
    let delP := delProcSet p ipos recursive
    compact p (delNodeSet p delP) delP
  else p

/-- The set of processes a `deleteProcess` call must remove according to the
spec: the process itself, and transitively every live consumer of an output
node of a removed process. -/
inductive MustDelete (p : PipeLine) (ipos : Nat) : Nat → Prop where
  | base : MustDelete p ipos ipos
  | step {i j q : Nat} : MustDelete p ipos i → j ∈ outputIdxsOf p i →
      q ∈ consumerIdxsOf p j → MustDelete p ipos q

/-- Whether every output node of a process names a file that exists, for a
given file-existence predicate standing in for the filesystem. -/
def allOutputFilesExist (fs : String → Bool) (p : PipeLine) (pr : Process) : Bool :=
  pr.outputNodeList.all (fun h =>
    match p.nodeList.get? h with
    | some nd => fs nd.name
    | none => false)

/-- The per-process status update of `checkProcessCompletion`. -/
def completionStep (fs : String → Bool) (p : PipeLine) (pr : Process) : Process :=
  if pr.status = PROC_RUNNING ∧ allOutputFilesExist fs p pr then
    { pr with status := PROC_FINISHED }
  else pr

/-- Modelled from the spec: `checkProcessCompletion` (declared `pipeliner.h`
line 207).  Every process with status `PROC_RUNNING` all of whose output
nodes name existing files becomes `PROC_FINISHED`; no other status changes.
The filesystem is abstracted by the existence predicate `fs`. -/
def checkProcessCompletion (fs : String → Bool) (p : PipeLine) : PipeLine :=
  { p with processList := p.processList.map (completionStep fs p) }

/-- One node record of the persisted graph file: name, type code, producer
handle and consumer handles, as described in the spec's section 6. -/
structure NodeRecord where
  name : String
  type : Int
  producer : Int
  consumers : List Nat
deriving DecidableEq, Repr

/-- One process record of the persisted graph file: name, type code, status
and the ordered forward handle lists. -/
structure ProcessRecord where
  name : String
  type : Int
  status : Int
  inputs : List Nat
  outputs : List Nat
deriving DecidableEq, Repr

/-- The persisted graph file: display name plus one record per node and per
process. -/
structure PersistedPipeLine where
  name : String
  nodeTable : List NodeRecord
  processTable : List ProcessRecord
deriving DecidableEq, Repr

/-- Node record written for one surviving node, with its handles remapped to
the compacted positions. -/
def nodeRecordOf (delP : Finset Nat) (pLen : Nat) (nd : Node) : NodeRecord :=
  { name := nd.name, type := nd.type,
    producer := fixProducer delP pLen nd.outputFromProcess,
    consumers := nd.inputForProcessList.filterMap (fixHandle delP pLen) }

/-- Process record written for one surviving process, with its handles
remapped to the compacted positions. -/
def processRecordOf (delN : Finset Nat) (nLen : Nat) (pr : Process) : ProcessRecord :=
  { name := pr.name, type := pr.type, status := pr.status,
    inputs := pr.inputNodeList.filterMap (fixHandle delN nLen),
    outputs := pr.outputNodeList.filterMap (fixHandle delN nLen) }

/-- Positions marked `true` in an exclusion vector, as a finite set. -/
def flagsToFinset (flags : List Bool) : Finset Nat :=
  ((List.range flags.length).filter (fun j => flags.getD j false)).toFinset

/-- Modelled from the spec: `write` (declared `pipeliner.h` line 210).  The
entries marked in the two exclusion vectors are skipped and every emitted
handle is remapped to the compacted position it will occupy once the
excluded entries are dropped; handles that point at excluded or dead entries
are dropped.  The live graph is not mutated: the result is only the file
image. -/
def write (p : PipeLine) (deleteNode deleteProcessFlags : List Bool) : PersistedPipeLine :=
  let delN := flagsToFinset deleteNode
  let delP := flagsToFinset deleteProcessFlags
  { name := p.name,
    nodeTable := keepMap (fun j => decide (j ∈ delN)) (nodeRecordOf delP p.processList.length)
      0 p.nodeList,
    processTable := keepMap (fun i => decide (i ∈ delP))
      (processRecordOf delN p.nodeList.length) 0 p.processList }

/-- Consumer handles of node `j` re-derived from the stored forward input
lists alone: the processes whose `inputs` mention `j`, in position order. -/
def consumersFromTable (tbl : List ProcessRecord) (j : Nat) : List Nat :=
  (List.range tbl.length).filter (fun q =>
    match tbl.get? q with
    | some r => decide (j ∈ r.inputs)
    | none => false)

/-- Producer handle of node `j` re-derived from the stored forward output
lists alone: the first process whose `outputs` mention `j`, or `-1`. -/
def producerFromTable (tbl : List ProcessRecord) (j : Nat) : Int :=
  match (List.range tbl.length).find? (fun q =>
    match tbl.get? q with
    | some r => decide (j ∈ r.outputs)
    | none => false) with
  | some q => (q : Int)
  | none => -1

/-- The in-memory node built for the record at position `j`, with both
back-references re-derived from the forward lists of the process table. -/
def nodeFromTables (tbl : List ProcessRecord) (j : Nat) (r : NodeRecord) : Node :=
  { name := r.name, type := r.type,
    inputForProcessList := consumersFromTable tbl j,
    outputFromProcess := producerFromTable tbl j }

/-- Build the node list from the node table, tracking the position `j` of
each record. -/
def buildNodes (tbl : List ProcessRecord) : Nat → List NodeRecord → List Node
  | _, [] => []
  | j, r :: rest => nodeFromTables tbl j r :: buildNodes tbl (j + 1) rest

/-- The in-memory process built for one process record. -/
def processFromRecord (r : ProcessRecord) : Process :=
  { name := r.name, type := r.type, status := r.status,
    inputNodeList := r.inputs, outputNodeList := r.outputs }

/-- `dependsOn tbl q1 q2` holds when process `q1` uses an output of process
`q2` as one of its inputs. -/
def dependsOn (tbl : List ProcessRecord) (q1 q2 : Nat) : Bool :=
  match tbl.get? q1, tbl.get? q2 with
  | some a, some b => a.inputs.any (fun j => decide (j ∈ b.outputs))
  | _, _ => false

/-- Immediate dependencies of process `q` in the stored table. -/
def succsOf (tbl : List ProcessRecord) (q : Nat) : Finset Nat :=
  ((List.range tbl.length).filter (fun r => dependsOn tbl q r)).toFinset

/-- Processes reachable from a seed set along `dependsOn`, by iterating the
one-step extension to its fixed point. -/
def reachSet (tbl : List ProcessRecord) (s : Finset Nat) : Finset Nat :=
  Nat.iterate (fun t => t ∪ t.biUnion (succsOf tbl)) tbl.length s

/-- A cyclic producer chain in the stored table: some process can reach
itself along "uses an output of". -/
def HasCycle (tbl : List ProcessRecord) : Prop :=
  ∃ q, q < tbl.length ∧ q ∈ reachSet tbl (succsOf tbl q)

instance (tbl : List ProcessRecord) : Decidable (HasCycle tbl) := by
  unfold HasCycle; infer_instance

/-- The section-3 invariants a parsed record set must satisfy before it may
replace the live graph: unique node and process names, no forward handle
outside the node table, at most one producer per node, and no cyclic
producer chain. -/
def ValidTables (f : PersistedPipeLine) : Prop :=
  (f.nodeTable.map NodeRecord.name).Nodup ∧
  (f.processTable.map ProcessRecord.name).Nodup ∧
  (∀ r ∈ f.processTable, ∀ h ∈ r.inputs ++ r.outputs, h < f.nodeTable.length) ∧
  (∀ q1 (h1 : q1 < f.processTable.length), ∀ q2 (h2 : q2 < f.processTable.length),
    ∀ j ∈ (f.processTable.get ⟨q1, h1⟩).outputs,
      j ∈ (f.processTable.get ⟨q2, h2⟩).outputs → q1 = q2) ∧
  ¬HasCycle f.processTable

instance (f : PersistedPipeLine) : Decidable (ValidTables f) := by
  unfold ValidTables; infer_instance

/-- Modelled from the spec: `read` (declared `pipeliner.h` line 213).  A
file whose record set violates the section-3 invariants is rejected with
`CorruptPersistedState` and the live graph `p` is returned untouched;
otherwise the whole graph is replaced by the parsed one, with the node
back-references re-derived purely from the stored forward lists. -/
def read (p : PipeLine) (f : PersistedPipeLine) : PipeLine × Option PipeErr :=
  if ValidTables f then
    ({ name := f.name,
       nodeList := buildNodes f.processTable 0 f.nodeTable,
       processList := f.processTable.map processFromRecord }, none)
  else (p, some PipeErr.CorruptPersistedState)

/-- The process table the serializer emits for a graph with no exclusions;
used to state that the graph's dependency relation is acyclic. -/
def procTableOf (p : PipeLine) : List ProcessRecord :=
  p.processList.map (fun pr =>
    { name := pr.name, type := pr.type, status := pr.status,
      inputs := pr.inputNodeList, outputs := pr.outputNodeList })

/-- The section-3 invariants of a live graph: unique names on both
collections, no dangling handle in any direction, producer/output symmetry
(which forces at most one producer per node), consumer/input symmetry, and
an acyclic dependency relation. -/
def Consistent (p : PipeLine) : Prop :=
  (p.nodeList.map Node.name).Nodup ∧
  (p.processList.map Process.name).Nodup ∧
  (∀ pr ∈ p.processList, ∀ h ∈ pr.inputNodeList ++ pr.outputNodeList, h < p.nodeList.length) ∧
  (∀ nd ∈ p.nodeList, ∀ q ∈ nd.inputForProcessList, q < p.processList.length) ∧
  (∀ nd ∈ p.nodeList, nd.outputFromProcess = -1 ∨
    (0 ≤ nd.outputFromProcess ∧ nd.outputFromProcess < (p.processList.length : Int))) ∧
  (∀ j (hj : j < p.nodeList.length), ∀ q (hq : q < p.processList.length),
    ((p.nodeList.get ⟨j, hj⟩).outputFromProcess = (q : Int) ↔
      j ∈ (p.processList.get ⟨q, hq⟩).outputNodeList)) ∧
  (∀ j (hj : j < p.nodeList.length), ∀ q (hq : q < p.processList.length),
    (q ∈ (p.nodeList.get ⟨j, hj⟩).inputForProcessList ↔
      j ∈ (p.processList.get ⟨q, hq⟩).inputNodeList)) ∧
  ¬HasCycle (procTableOf p)

instance (p : PipeLine) : Decidable (Consistent p) := by
  unfold Consistent; infer_instance

/-- The two-process scenario of the spec's section 8: process `A` (import,
scheduled) produces node `mic.star`; process `B` (autopick, scheduled)
consumes `mic.star` and produces `coords.star`.  Built through the public
registration and edge-declaration operations. -/
def scenarioPipeline : PipeLine :=
  let s1 := addNewProcess PipeLine.empty (Process.make "A" PROC_IMPORT PROC_SCHEDULED) false
  let s2 := addNewOutputEdge s1.1 0 (Node.make "mic.star" NODE_MIC)
  let s3 := addNewProcess s2.1 (Process.make "B" PROC_AUTOPICK PROC_SCHEDULED) false
  let s4 := addNewInputEdge s3.1 (Node.make "mic.star" NODE_MIC) 1
  let s5 := addNewOutputEdge s4 1 (Node.make "coords.star" NODE_MIC_COORD)
  s5.1

/-- A fixture with two running processes: the output file of the first
exists under `scenarioFs`, the output file of the second does not. -/
def runningPipeline : PipeLine :=
  { name := "default",
    nodeList :=
      [ { name := "out.star", type := NODE_MIC, inputForProcessList := [],
          outputFromProcess := 0 },
        { name := "missing.star", type := NODE_MIC, inputForProcessList := [],
          outputFromProcess := 1 } ],
    processList :=
      [ { name := "P0", type := PROC_IMPORT, status := PROC_RUNNING,
          inputNodeList := [], outputNodeList := [0] },
        { name := "P1", type := PROC_IMPORT, status := PROC_RUNNING,
          inputNodeList := [], outputNodeList := [1] },
        { name := "P2", type := PROC_IMPORT, status := PROC_FINISHED,
          inputNodeList := [], outputNodeList := [] } ] }

/-- File-existence predicate for `runningPipeline`: only `out.star` exists. -/
def scenarioFs : String → Bool := fun s => s == "out.star"

/-- A persisted file with a duplicate node name, used as a corrupt input. -/
def corruptFile : PersistedPipeLine :=
  { name := "default",
    nodeTable :=
      [ { name := "a.star", type := 1, producer := -1, consumers := [] },
        { name := "a.star", type := 1, producer := -1, consumers := [] } ],
    processTable := [] }

/-! ### Helper lemmas -/

theorem set_get?_self {α : Type _} {l : List α} {i : Nat} {a : α}
    (h : l.get? i = some a) : l.set i a = l := by
  induction l generalizing i with
  | nil => rfl
  | cons b tl ih =>
    cases i with
    | zero =>
      simp only [List.get?] at h
      cases h
      rfl
    | succ m =>
      simp only [List.get?] at h
      simp [List.set, ih h]

theorem nodup_names_addNode (p : PipeLine) (n : Node)
    (h : (p.nodeList.map Node.name).Nodup) :
    ((addNode p n).1.nodeList.map Node.name).Nodup := by
  unfold addNode
  cases hfind : lookupNodeIdx p n.name with
  | some i => simpa using h
  | none =>
    have hall : ∀ nd ∈ p.nodeList, nd.name ≠ n.name := by
      intro nd hnd
      have hq := (List.findIdx?_eq_none_iff.mp hfind) nd hnd
      simpa using hq
    simp only [List.map_append, List.map_cons, List.map_nil]
    rw [List.nodup_append]
    refine ⟨h, List.nodup_singleton _, ?_⟩
    intro a ha hb
    simp only [List.mem_singleton] at hb
    subst hb
    obtain ⟨nd, hnd, hname⟩ := List.mem_map.mp ha
    exact hall nd hnd hname

theorem map_name_addNewInputEdge (p : PipeLine) (n : Node) (q : Nat) :
    (addNewInputEdge p n q).nodeList.map Node.name
      = (addNode p n).1.nodeList.map Node.name := by
  simp only [addNewInputEdge]
  cases hget : (addNode p n).1.nodeList.get? (addNode p n).2 with
  | none => rfl
  | some nd =>
    by_cases hmem : q ∈ nd.inputForProcessList
    · simp [hmem]
    · simp only [hmem, if_neg, not_false_iff]
      rw [List.map_set]
      exact set_get?_self (by rw [List.get?_map, hget]; rfl)

theorem map_name_addNewOutputEdge (p : PipeLine) (q : Nat) (n : Node) :
    (addNewOutputEdge p q n).1.nodeList.map Node.name
      = (addNode p n).1.nodeList.map Node.name
    ∨ (addNewOutputEdge p q n).1.nodeList.map Node.name = p.nodeList.map Node.name := by
  simp only [addNewOutputEdge]
  cases hget : (addNode p n).1.nodeList.get? (addNode p n).2 with
  | none => left; rfl
  | some nd =>
    by_cases hc : nd.outputFromProcess ≠ -1 ∧ nd.outputFromProcess ≠ (q : Int)
    · right; simp [hc]
    · left
      simp only [hc, if_neg, not_false_iff]
      rw [List.map_set]
      exact set_get?_self (by rw [List.get?_map, hget]; rfl)

theorem nodup_names_applyEdgeOp (p : PipeLine) (op : EdgeOp)
    (h : (p.nodeList.map Node.name).Nodup) :
    ((applyEdgeOp p op).nodeList.map Node.name).Nodup := by
  cases op with
  | declInput n q =>
    show ((addNewInputEdge p n q).nodeList.map Node.name).Nodup
    rw [map_name_addNewInputEdge]
    exact nodup_names_addNode p n h
  | declOutput q n =>
    show (((addNewOutputEdge p q n).1).nodeList.map Node.name).Nodup
    rcases map_name_addNewOutputEdge p q n with heq | heq
    · rw [heq]; exact nodup_names_addNode p n h
    · rw [heq]; exact h

/-! ### Claim theorems -/

/-- C1: for every sequence of `declareOutputEdge` (`addNewOutputEdge`) and
`declareInputEdge` (`addNewInputEdge`) calls starting from the empty graph,
no two live nodes ever share a name, because both edge declarations go
through `addNode`, which looks the node up by name first and only allocates
a new entry on a miss. -/
theorem edge_decls_never_duplicate_names (ops : List EdgeOp) :
    ((runEdgeOps ops).nodeList.map Node.name).Nodup := by
  suffices h : ∀ p : PipeLine, (p.nodeList.map Node.name).Nodup →
      ((ops.foldl applyEdgeOp p).nodeList.map Node.name).Nodup by
    exact h PipeLine.empty (by simp [PipeLine.empty])
  induction ops with
  | nil => intro p h; simpa using h
  | cons op rest ih =>
    intro p h
    rw [List.foldl_cons]
    exact ih (applyEdgeOp p op) (nodup_names_applyEdgeOp p op h)

/-- C10: a freshly constructed `Node(name, type)` has no producer and no
consumers: `outputFromProcess` is the sentinel `-1` and
`inputForProcessList` is empty. -/
theorem fresh_node_has_no_edges (nm : String) (t : Int) :
    (Node.make nm t).outputFromProcess = -1 ∧ (Node.make nm t).inputForProcessList = [] :=
  ⟨rfl, rfl⟩

theorem allOutputFilesExist_iff (fs : String → Bool) (p : PipeLine) (pr : Process) :
    allOutputFilesExist fs p pr = true ↔
      ∀ h ∈ pr.outputNodeList, ∃ nd, p.nodeList.get? h = some nd ∧ fs nd.name = true := by
  unfold allOutputFilesExist
  rw [List.all_eq_true]
  refine forall₂_congr ?_
  intro h hmem
  cases hg : p.nodeList.get? h <;> simp [hg]

theorem completionStep_idem (fs : String → Bool) (p : PipeLine) (pr : Process) :
    completionStep fs (checkProcessCompletion fs p) (completionStep fs p pr)
      = completionStep fs p pr := by
  unfold completionStep
  by_cases hc : pr.status = PROC_RUNNING ∧ allOutputFilesExist fs p pr = true
  · rw [if_pos hc, if_neg]
    rintro ⟨h0, -⟩
    have h1 : PROC_FINISHED = PROC_RUNNING := h0
    exact absurd h1 (by decide)
  · rw [if_neg hc, if_neg]
    intro hcon
    exact hc ⟨hcon.1, hcon.2⟩

/-- C3: `checkProcessCompletion` turns a process's status from `RUNNING`
into `FINISHED` exactly when every node in its outputs names a file that
exists; a `RUNNING` process with an absent output file keeps status
`RUNNING`, and any process whose status is not `RUNNING` (`SCHEDULED`,
`FINISHED`, `CANCELLED`) is left entirely unchanged. -/
theorem checkProcessCompletion_transition (fs : String → Bool) (p : PipeLine)
    (i : Nat) (old : Process) (hget : p.processList.get? i = some old) :
    (old.status = PROC_RUNNING ∧
        (∀ h ∈ old.outputNodeList, ∃ nd, p.nodeList.get? h = some nd ∧ fs nd.name = true) →
        (checkProcessCompletion fs p).processList.get? i
          = some { old with status := PROC_FINISHED }) ∧
    (old.status = PROC_RUNNING ∧
        ¬(∀ h ∈ old.outputNodeList, ∃ nd, p.nodeList.get? h = some nd ∧ fs nd.name = true) →
        (checkProcessCompletion fs p).processList.get? i = some old) ∧
    (old.status ≠ PROC_RUNNING →
        (checkProcessCompletion fs p).processList.get? i = some old) := by
  have hmap : (checkProcessCompletion fs p).processList.get? i
      = some (completionStep fs p old) := by
    show (p.processList.map _).get? i = _
    rw [List.get?_map, hget]
    rfl
  refine ⟨?_, ?_, ?_⟩
  · rintro ⟨hst, hex⟩
    rw [hmap]
    unfold completionStep
    rw [if_pos ⟨hst, (allOutputFilesExist_iff fs p old).mpr hex⟩]
  · rintro ⟨hst, hex⟩
    rw [hmap]
    unfold completionStep
    rw [if_neg]
    rintro ⟨-, hall⟩
    exact hex ((allOutputFilesExist_iff fs p old).mp hall)
  · intro hst
    rw [hmap]
    unfold completionStep
    rw [if_neg]
    rintro ⟨h0, -⟩
    exact hst h0

theorem checkProcessCompletion_transition_witness :
    (checkProcessCompletion scenarioFs runningPipeline).processList.get? 0
        = some { name := "P0", type := PROC_IMPORT, status := PROC_FINISHED,
                 inputNodeList := [], outputNodeList := [0] } ∧
      (checkProcessCompletion scenarioFs runningPipeline).processList.get? 1
        = some { name := "P1", type := PROC_IMPORT, status := PROC_RUNNING,
                 inputNodeList := [], outputNodeList := [1] } := by
  have h0 := (checkProcessCompletion_transition scenarioFs runningPipeline 0
    { name := "P0", type := PROC_IMPORT, status := PROC_RUNNING,
      inputNodeList := [], outputNodeList := [0] } rfl).1
  have h1 := (checkProcessCompletion_transition scenarioFs runningPipeline 1
    { name := "P1", type := PROC_IMPORT, status := PROC_RUNNING,
      inputNodeList := [], outputNodeList := [1] } rfl).2.1
  refine ⟨h0 ⟨rfl, ?_⟩, h1 ⟨rfl, by decide⟩⟩
  intro h hm
  simp only [List.mem_singleton] at hm
  subst hm
  exact ⟨_, rfl, rfl⟩

/-- C4: `checkProcessCompletion` is idempotent for a fixed file-existence
predicate, and a process whose status is already `FINISHED` is never
changed (in particular never regressed to `RUNNING`). -/
theorem checkProcessCompletion_idempotent (fs : String → Bool) (p : PipeLine) :
    checkProcessCompletion fs (checkProcessCompletion fs p) = checkProcessCompletion fs p ∧
    ∀ i (h : i < p.processList.length),
      (p.processList.get ⟨i, h⟩).status = PROC_FINISHED →
      (checkProcessCompletion fs p).processList.get? i = some (p.processList.get ⟨i, h⟩) := by
  constructor
  · have h2 : ((checkProcessCompletion fs p).processList).map
        (completionStep fs (checkProcessCompletion fs p))
        = (checkProcessCompletion fs p).processList := by
      show (p.processList.map (completionStep fs p)).map _ = _
      rw [List.map_map]
      apply List.map_congr_left
      intro pr _
      exact completionStep_idem fs p pr
    show { checkProcessCompletion fs p with
      processList := ((checkProcessCompletion fs p).processList).map
        (completionStep fs (checkProcessCompletion fs p)) } = checkProcessCompletion fs p
    rw [h2]
  · intro i h hfin
    show (p.processList.map _).get? i = _
    rw [List.get?_map, List.get?_eq_get h]
    simp only [Option.map_some']
    unfold completionStep
    rw [if_neg]
    rintro ⟨h0, -⟩
    rw [hfin] at h0
    exact absurd h0 (by decide)

theorem updateAt_length {α : Type _} (l : List α) (i : Nat) (f : α → α) :
    (updateAt l i f).length = l.length := by
  unfold updateAt
  cases hget : l.get? i with
  | none => rfl
  | some a => exact List.length_set l i (f a)

theorem updateAt_get?_same {α : Type _} {l : List α} {i : Nat} {a : α} (f : α → α)
    (hget : l.get? i = some a) : (updateAt l i f).get? i = some (f a) := by
  unfold updateAt
  rw [hget, List.get?_set_eq, hget]
  rfl

theorem updateAt_get?_other {α : Type _} (l : List α) (i : Nat) (f : α → α) (j : Nat)
    (hne : j ≠ i) : (updateAt l i f).get? j = l.get? j := by
  unfold updateAt
  cases hget : l.get? i with
  | none => rfl
  | some a => exact List.get?_set_ne (f a) l (Ne.symm hne)

theorem checkProcessCompletion_idempotent_witness :
    checkProcessCompletion scenarioFs (checkProcessCompletion scenarioFs runningPipeline)
        = checkProcessCompletion scenarioFs runningPipeline ∧
      (checkProcessCompletion scenarioFs runningPipeline).processList.get? 2
        = some (runningPipeline.processList.get ⟨2, by decide⟩) :=
  ⟨(checkProcessCompletion_idempotent scenarioFs runningPipeline).1,
   (checkProcessCompletion_idempotent scenarioFs runningPipeline).2 2 (by decide) (by decide)⟩

/-- C7: registering a process whose name equals an existing process's name
with `do_overwrite` false is rejected with `DuplicateName` and the graph is
not mutated; with `do_overwrite` true the existing entry's status and edge
lists are replaced in place, its handle is preserved (and returned), and no
other entry changes. -/
theorem addNewProcess_duplicate (p : PipeLine) (pr : Process) (i : Nat)
    (hfound : lookupProcessIdx p pr.name = some i) :
    addNewProcess p pr false = (p, Except.error PipeErr.DuplicateName) ∧
    (addNewProcess p pr true).2 = Except.ok i ∧
    (addNewProcess p pr true).1.processList.length = p.processList.length ∧
    (∀ old, p.processList.get? i = some old →
      (addNewProcess p pr true).1.processList.get? i
        = some { old with status := pr.status, inputNodeList := pr.inputNodeList, outputNodeList := pr.outputNodeList }) ∧
    (∀ j, j ≠ i → (addNewProcess p pr true).1.processList.get? j = p.processList.get? j) := by
  refine ⟨?_, ?_, ?_, ?_, ?_⟩
  · simp [addNewProcess, hfound]
  · simp [addNewProcess, hfound]
  · simp only [addNewProcess, hfound]
    exact updateAt_length _ _ _
  · intro old hold
    simp only [addNewProcess, hfound]
    exact updateAt_get?_same _ hold
  · intro j hne
    simp only [addNewProcess, hfound]
    exact updateAt_get?_other _ _ _ _ hne

theorem addNewProcess_duplicate_witness :
    addNewProcess scenarioPipeline (Process.make "A" PROC_IMPORT PROC_RUNNING) false
        = (scenarioPipeline, Except.error PipeErr.DuplicateName) ∧
      (addNewProcess scenarioPipeline (Process.make "A" PROC_IMPORT PROC_RUNNING) true).2
        = Except.ok 0 :=
  ⟨(addNewProcess_duplicate scenarioPipeline
      (Process.make "A" PROC_IMPORT PROC_RUNNING) 0 (by decide)).1,
   (addNewProcess_duplicate scenarioPipeline
      (Process.make "A" PROC_IMPORT PROC_RUNNING) 0 (by decide)).2.1⟩

/-- C8: declaring an output edge onto a node that already has a producer
different from the given process reports `ProducerConflict` and returns the
graph unchanged: `outputFromProcess` is not overwritten and no other field
changes, so a node never acquires a second producer. -/
theorem addNewOutputEdge_conflict (p : PipeLine) (q : Nat) (n : Node) (i : Nat) (nd : Node)
    (hfind : lookupNodeIdx p n.name = some i)
    (hget : p.nodeList.get? i = some nd)
    (hprod : nd.outputFromProcess ≠ -1)
    (hdiff : nd.outputFromProcess ≠ (q : Int)) :
    addNewOutputEdge p q n = (p, some PipeErr.ProducerConflict) := by
  simp only [addNewOutputEdge, addNode, hfind, hget]
  rw [if_pos ⟨hprod, hdiff⟩]

theorem addNewOutputEdge_conflict_witness :
    addNewOutputEdge scenarioPipeline 1 (Node.make "mic.star" NODE_MIC)
      = (scenarioPipeline, some PipeErr.ProducerConflict) :=
  addNewOutputEdge_conflict scenarioPipeline 1 (Node.make "mic.star" NODE_MIC) 0
    { name := "mic.star", type := NODE_MIC, inputForProcessList := [1],
      outputFromProcess := 0 }
    (by decide) (by decide) (by decide) (by decide)

theorem keepMap_congr {α β : Type _} {del1 del2 : Nat → Bool} (t : α → β)
    (h : ∀ j, del1 j = del2 j) :
    ∀ (k : Nat) (l : List α), keepMap del1 t k l = keepMap del2 t k l := by
  intro k l
  induction l generalizing k with
  | nil => rfl
  | cons a tl ih =>
    show (if del1 k then _ else _) = (if del2 k then _ else _)
    rw [h k, ih (k + 1)]

theorem keepMap_funext {α β : Type _} {del : Nat → Bool} {t1 t2 : α → β}
    (h : ∀ a, t1 a = t2 a) :
    ∀ (k : Nat) (l : List α), keepMap del t1 k l = keepMap del t2 k l := by
  intro k l
  induction l generalizing k with
  | nil => rfl
  | cons a tl ih =>
    show (if del k then _ else _) = _
    rw [h a, ih (k + 1)]
    rfl

theorem keepMap_map {α β γ : Type _} (del : Nat → Bool) (t : α → β) (g : β → γ) :
    ∀ (k : Nat) (l : List α), (keepMap del t k l).map g = keepMap del (fun a => g (t a)) k l := by
  intro k l
  induction l generalizing k with
  | nil => rfl
  | cons a tl ih =>
    show ((if del k then _ else _) : List β).map g = (if del k then _ else _)
    by_cases hd : del k
    · rw [if_pos hd, if_pos hd, ih (k + 1)]
    · rw [if_neg hd, if_neg hd, List.map_cons, ih (k + 1)]

theorem keepMap_length {α β : Type _} (del : Nat → Bool) (t : α → β) :
    ∀ (k : Nat) (l : List α), (keepMap del t k l).length = countKept del k l.length := by
  intro k l
  induction l generalizing k with
  | nil => rfl
  | cons a tl ih =>
    show ((if del k then _ else _) : List β).length = (if del k then 0 else 1) + _
    by_cases hd : del k
    · rw [if_pos hd, if_pos hd, ih (k + 1)]
      omega
    · rw [if_neg hd, if_neg hd, List.length_cons, ih (k + 1)]
      omega

theorem mem_keepMap {α β : Type _} {del : Nat → Bool} {t : α → β} {b : β} :
    ∀ {k : Nat} {l : List α}, b ∈ keepMap del t k l → ∃ a ∈ l, b = t a := by
  intro k l
  induction l generalizing k with
  | nil => intro h; cases h
  | cons a tl ih =>
    intro h
    by_cases hd : del k
    · rw [show keepMap del t k (a :: tl) = keepMap del t (k + 1) tl from if_pos hd] at h
      obtain ⟨a2, ha2, hb⟩ := ih h
      exact ⟨a2, List.mem_cons_of_mem a ha2, hb⟩
    · rw [show keepMap del t k (a :: tl) = t a :: keepMap del t (k + 1) tl from if_neg hd] at h
      rcases List.mem_cons.mp h with hb | hb
      · exact ⟨a, List.mem_cons_self a tl, hb⟩
      · obtain ⟨a2, ha2, hb⟩ := ih hb
        exact ⟨a2, List.mem_cons_of_mem a ha2, hb⟩

theorem keepMap_get? {α β : Type _} (del : Nat → Bool) (t : α → β) :
    ∀ (l : List α) (k j : Nat), j < l.length → del (k + j) = false →
      (keepMap del t k l).get? (countKept del k j) = (l.get? j).map t := by
  intro l
  induction l with
  | nil => intro k j hj _; exact absurd hj (by simp)
  | cons a tl ih =>
    intro k j hj hdel
    cases j with
    | zero =>
      rw [Nat.add_zero] at hdel
      show (keepMap del t k (a :: tl)).get? 0 = some (t a)
      rw [show keepMap del t k (a :: tl) = t a :: keepMap del t (k + 1) tl from if_neg
        (by rw [hdel]; exact Bool.false_ne_true)]
      rfl
    | succ m =>
      have hdel2 : del ((k + 1) + m) = false := by
        rw [show (k + 1) + m = k + (m + 1) by omega]
        exact hdel
      have hm : m < tl.length := by simpa using hj
      by_cases hd : del k
      · rw [show keepMap del t k (a :: tl) = keepMap del t (k + 1) tl from if_pos hd,
          show countKept del k (m + 1) = countKept del (k + 1) m by
            show (if del k then 0 else 1) + _ = _
            rw [if_pos hd]
            omega]
        exact ih (k + 1) m hm hdel2
      · rw [show keepMap del t k (a :: tl) = t a :: keepMap del t (k + 1) tl from if_neg hd,
          show countKept del k (m + 1) = countKept del (k + 1) m + 1 by
            show (if del k then 0 else 1) + _ = _
            rw [if_neg hd]
            omega]
        show (keepMap del t (k + 1) tl).get? (countKept del (k + 1) m) = (tl.get? m).map t
        exact ih (k + 1) m hm hdel2

theorem countKept_lt (del : Nat → Bool) :
    ∀ (j : Nat) (k n : Nat), j < n → del (k + j) = false →
      countKept del k j < countKept del k n := by
  intro j
  induction j with
  | zero =>
    intro k n hn hdel
    rw [Nat.add_zero] at hdel
    obtain ⟨m, rfl⟩ : ∃ m, n = m + 1 := ⟨n - 1, by omega⟩
    show 0 < (if del k then 0 else 1) + countKept del (k + 1) m
    rw [if_neg (by rw [hdel]; exact Bool.false_ne_true)]
    omega
  | succ jj ih =>
    intro k n hn hdel
    obtain ⟨m, rfl⟩ : ∃ m, n = m + 1 := ⟨n - 1, by omega⟩
    show (if del k then 0 else 1) + countKept del (k + 1) jj
        < (if del k then 0 else 1) + countKept del (k + 1) m
    have hdel2 : del ((k + 1) + jj) = false := by
      rw [show (k + 1) + jj = k + (jj + 1) by omega]
      exact hdel
    have := ih (k + 1) m (by omega) hdel2
    omega

theorem keepMap_all_false {α β : Type _} {del : Nat → Bool} (t : α → β)
    (h : ∀ j, del j = false) :
    ∀ (k : Nat) (l : List α), keepMap del t k l = l.map t := by
  intro k l
  induction l generalizing k with
  | nil => rfl
  | cons a tl ih =>
    rw [show keepMap del t k (a :: tl) = t a :: keepMap del t (k + 1) tl from if_neg
      (by rw [h k]; exact Bool.false_ne_true), ih (k + 1)]
    rfl

theorem keepMap_past {α β : Type _} (t : α → β) (ipos : Nat) :
    ∀ (l : List α) (k : Nat), ipos < k →
      keepMap (fun j => decide (j = ipos)) t k l = l.map t := by
  intro l
  induction l with
  | nil => intro k _; rfl
  | cons a tl ih =>
    intro k hk
    rw [show keepMap (fun j => decide (j = ipos)) t k (a :: tl)
        = t a :: keepMap (fun j => decide (j = ipos)) t (k + 1) tl from if_neg
      (by simp; omega), ih (k + 1) (by omega)]
    rfl

theorem keepMap_eq_eraseIdx_map {α β : Type _} (t : α → β) (ipos : Nat) :
    ∀ (l : List α) (k : Nat), k ≤ ipos →
      keepMap (fun j => decide (j = ipos)) t k l = (l.eraseIdx (ipos - k)).map t := by
  intro l
  induction l with
  | nil => intro k _; rfl
  | cons a tl ih =>
    intro k hk
    by_cases hke : k = ipos
    · subst hke
      rw [show keepMap (fun j => decide (j = k)) t k (a :: tl)
          = keepMap (fun j => decide (j = k)) t (k + 1) tl from if_pos (by simp),
        keepMap_past t k tl (k + 1) (by omega)]
      rw [show k - k = 0 from by omega, List.eraseIdx_cons_zero]
    · have hklt : k < ipos := by omega
      rw [show keepMap (fun j => decide (j = ipos)) t k (a :: tl)
          = t a :: keepMap (fun j => decide (j = ipos)) t (k + 1) tl from if_neg
        (by simp; omega), ih (k + 1) (by omega)]
      obtain ⟨m, hm⟩ : ∃ m, ipos - k = m + 1 := ⟨ipos - k - 1, by omega⟩
      rw [hm, List.eraseIdx_cons_succ, List.map_cons,
        show ipos - (k + 1) = m by omega]

theorem fixHandle_eq_some {del : Finset Nat} {len h h2 : Nat}
    (heq : fixHandle del len h = some h2) :
    h < len ∧ h ∉ del ∧ h2 = remapIdx del h := by
  unfold fixHandle at heq
  by_cases hc : h < len ∧ h ∉ del
  · rw [if_pos hc] at heq
    exact ⟨hc.1, hc.2, (Option.some.injEq _ _ ▸ heq).symm⟩
  · rw [if_neg hc] at heq
    cases heq

theorem filterMap_fixHandle (del : Finset Nat) (len : Nat) (l : List Nat) :
    l.filterMap (fixHandle del len)
      = (l.filter (fun h => decide (h < len) && decide (h ∉ del))).map (remapIdx del) := by
  induction l with
  | nil => rfl
  | cons h tl ih =>
    rw [List.filterMap_cons, List.filter_cons]
    by_cases hc : h < len ∧ h ∉ del
    · rw [show fixHandle del len h = some (remapIdx del h) from if_pos hc]
      rw [if_pos (by simp [hc.1, hc.2])]
      rw [List.map_cons, ih]
    · rw [show fixHandle del len h = none from if_neg hc]
      rw [if_neg (by simpa using fun h1 h2 => hc ⟨h1, h2⟩)]
      exact ih

theorem remapIdx_lt (del : Finset Nat) (len h0 : Nat) (hlt : h0 < len) (hnot : h0 ∉ del) :
    remapIdx del h0 < countKept (fun m => decide (m ∈ del)) 0 len := by
  unfold remapIdx
  apply countKept_lt
  · exact hlt
  · rw [Nat.zero_add]
    exact decide_eq_false hnot

theorem fixProducer_valid (del : Finset Nat) (len : Nat) (q : Int) :
    fixProducer del len q = -1 ∨
      (0 ≤ fixProducer del len q ∧
        fixProducer del len q < ((countKept (fun m => decide (m ∈ del)) 0 len : Nat) : Int)) := by
  unfold fixProducer
  by_cases hc : 0 ≤ q ∧ q.toNat < len ∧ q.toNat ∉ del
  · right
    rw [if_pos hc]
    refine ⟨Int.natCast_nonneg _, ?_⟩
    exact_mod_cast remapIdx_lt del len q.toNat hc.2.1 hc.2.2
  · left
    rw [if_neg hc]

theorem compact_valid (p : PipeLine) (delN delP : Finset Nat) :
    (∀ pr ∈ (compact p delN delP).processList,
        ∀ h ∈ pr.inputNodeList ++ pr.outputNodeList,
          h < (compact p delN delP).nodeList.length) ∧
    (∀ nd ∈ (compact p delN delP).nodeList,
        ∀ q ∈ nd.inputForProcessList, q < (compact p delN delP).processList.length) ∧
    (∀ nd ∈ (compact p delN delP).nodeList, nd.outputFromProcess = -1 ∨
        (0 ≤ nd.outputFromProcess ∧
          nd.outputFromProcess < ((compact p delN delP).processList.length : Int))) := by
  have hnlen : (compact p delN delP).nodeList.length
      = countKept (fun j => decide (j ∈ delN)) 0 p.nodeList.length :=
    keepMap_length _ _ 0 p.nodeList
  have hplen : (compact p delN delP).processList.length
      = countKept (fun i => decide (i ∈ delP)) 0 p.processList.length :=
    keepMap_length _ _ 0 p.processList
  refine ⟨?_, ?_, ?_⟩
  · intro pr hpr h hh
    obtain ⟨pr0, _, rfl⟩ := mem_keepMap hpr
    rw [hnlen]
    have hh2 : h ∈ pr0.inputNodeList.filterMap (fixHandle delN p.nodeList.length)
        ∨ h ∈ pr0.outputNodeList.filterMap (fixHandle delN p.nodeList.length) :=
      List.mem_append.mp hh
    rcases hh2 with hh2 | hh2 <;>
    · obtain ⟨h0, _, heq⟩ := List.mem_filterMap.mp hh2
      obtain ⟨hl, hn, rfl⟩ := fixHandle_eq_some heq
      exact remapIdx_lt delN p.nodeList.length h0 hl hn
  · intro nd hnd q hq
    obtain ⟨nd0, _, rfl⟩ := mem_keepMap hnd
    rw [hplen]
    obtain ⟨q0, _, heq⟩ := List.mem_filterMap.mp hq
    obtain ⟨hl, hn, rfl⟩ := fixHandle_eq_some heq
    exact remapIdx_lt delP p.processList.length q0 hl hn
  · intro nd hnd
    obtain ⟨nd0, _, rfl⟩ := mem_keepMap hnd
    rw [hplen]
    exact fixProducer_valid delP p.processList.length nd0.outputFromProcess

theorem delNodeSet_single (p : PipeLine) (ipos : Nat) :
    delNodeSet p {ipos} = (outputIdxsOf p ipos).toFinset := by
  unfold delNodeSet
  exact Finset.singleton_biUnion

/-- C5: for every graph and live process handle, non-cascading deletion
removes exactly that process and its own output nodes.  Every other process
survives with its name, type and status in order; each surviving process
sits at its renumbered position with its edge lists containing exactly its
surviving node handles, renumbered; afterwards every stored handle in the
graph refers to a live entry — process inputs/outputs and node `consumedBy`
handles index live entries, and every surviving node's `producedBy` is `-1`
or a live process position (in particular consumers of the deleted output
nodes no longer reference them); and in the section-8 scenario deleting `A`
non-cascadingly leaves `B` with an input list no longer naming `mic.star`. -/
theorem deleteProcess_noncascade (p : PipeLine) (ipos : Nat)
    (hip : ipos < p.processList.length) :
    ((deleteProcess p ipos false).processList.map (fun pr => (pr.name, pr.type, pr.status))
        = (p.processList.eraseIdx ipos).map (fun pr => (pr.name, pr.type, pr.status))) ∧
    ((deleteProcess p ipos false).nodeList.map (fun nd => (nd.name, nd.type))
        = keepMap (fun j => decide (j ∈ (outputIdxsOf p ipos).toFinset))
            (fun nd => (nd.name, nd.type)) 0 p.nodeList) ∧
    (∀ i (hi : i < p.processList.length), i ≠ ipos →
      ∃ pr2, (deleteProcess p ipos false).processList.get? (remapIdx {ipos} i) = some pr2 ∧
        pr2.name = (p.processList.get ⟨i, hi⟩).name ∧
        pr2.type = (p.processList.get ⟨i, hi⟩).type ∧
        pr2.status = (p.processList.get ⟨i, hi⟩).status ∧
        pr2.inputNodeList = ((p.processList.get ⟨i, hi⟩).inputNodeList.filter
            (fun h => decide (h < p.nodeList.length)
              && decide (h ∉ (outputIdxsOf p ipos).toFinset))).map
            (remapIdx (outputIdxsOf p ipos).toFinset) ∧
        pr2.outputNodeList = ((p.processList.get ⟨i, hi⟩).outputNodeList.filter
            (fun h => decide (h < p.nodeList.length)
              && decide (h ∉ (outputIdxsOf p ipos).toFinset))).map
            (remapIdx (outputIdxsOf p ipos).toFinset)) ∧
    (∀ pr ∈ (deleteProcess p ipos false).processList,
        ∀ h ∈ pr.inputNodeList ++ pr.outputNodeList,
          h < (deleteProcess p ipos false).nodeList.length) ∧
    (∀ nd ∈ (deleteProcess p ipos false).nodeList,
        ∀ q ∈ nd.inputForProcessList, q < (deleteProcess p ipos false).processList.length) ∧
    (∀ nd ∈ (deleteProcess p ipos false).nodeList, nd.outputFromProcess = -1 ∨
        (0 ≤ nd.outputFromProcess ∧
          nd.outputFromProcess < ((deleteProcess p ipos false).processList.length : Int))) ∧
    ((deleteProcess scenarioPipeline 0 false).processList
        = [{ name := "B", type := PROC_AUTOPICK, status := PROC_SCHEDULED,
             inputNodeList := [], outputNodeList := [0] }] ∧
      (deleteProcess scenarioPipeline 0 false).nodeList
        = [{ name := "coords.star", type := NODE_MIC_COORD, inputForProcessList := [],
             outputFromProcess := 0 }]) := by
  have hred : deleteProcess p ipos false
      = compact p (delNodeSet p {ipos}) {ipos} := by
    unfold deleteProcess
    rw [if_pos hip]
    rfl
  have hsingle : ∀ j : Nat, decide (j ∈ ({ipos} : Finset Nat)) = decide (j = ipos) := by
    intro j
    simp [Finset.mem_singleton]
  refine ⟨?_, ?_, ?_, ?_, ?_, ?_, by decide⟩
  · rw [hred]
    show (keepMap _ _ 0 p.processList).map _ = _
    rw [keepMap_map]
    rw [keepMap_congr _ hsingle 0 p.processList]
    rw [keepMap_eq_eraseIdx_map _ ipos p.processList 0 (by omega), Nat.sub_zero]
    exact List.map_congr_left (fun a _ => rfl)
  · rw [hred, delNodeSet_single]
    show (keepMap _ _ 0 p.nodeList).map _ = _
    rw [keepMap_map]
    exact keepMap_funext (fun a => rfl) 0 p.nodeList
  · intro i hi hne
    rw [hred, delNodeSet_single]
    refine ⟨compactProcess (outputIdxsOf p ipos).toFinset p.nodeList.length
      (p.processList.get ⟨i, hi⟩), ?_, rfl, rfl, rfl, ?_, ?_⟩
    · have hfalse : (fun i2 => decide (i2 ∈ ({ipos} : Finset Nat))) (0 + i) = false := by
        simp only [Nat.zero_add, Finset.mem_singleton]
        exact decide_eq_false hne
      have hkey := keepMap_get? (fun i2 => decide (i2 ∈ ({ipos} : Finset Nat)))
        (compactProcess (outputIdxsOf p ipos).toFinset p.nodeList.length)
        p.processList 0 i hi hfalse
      rw [List.get?_eq_get hi] at hkey
      exact hkey
    · exact filterMap_fixHandle _ _ _
    · exact filterMap_fixHandle _ _ _
  · intro pr hpr h hh
    rw [hred] at hpr ⊢
    exact (compact_valid p (delNodeSet p {ipos}) {ipos}).1 pr hpr h hh
  · intro nd hnd q hq
    rw [hred] at hnd ⊢
    exact (compact_valid p (delNodeSet p {ipos}) {ipos}).2.1 nd hnd q hq
  · intro nd hnd
    rw [hred] at hnd ⊢
    exact (compact_valid p (delNodeSet p {ipos}) {ipos}).2.2 nd hnd

theorem deleteProcess_noncascade_witness :
    (deleteProcess scenarioPipeline 0 false).processList.map
        (fun pr => (pr.name, pr.type, pr.status))
      = (scenarioPipeline.processList.eraseIdx 0).map
        (fun pr => (pr.name, pr.type, pr.status)) :=
  (deleteProcess_noncascade scenarioPipeline 0 (by decide)).1

theorem iterate_subset (f : Finset Nat → Finset Nat) (hinfl : ∀ s, s ⊆ f s) :
    ∀ (n : Nat) (s : Finset Nat), s ⊆ Nat.iterate f n s := by
  intro n
  induction n with
  | zero => intro s; exact subset_rfl
  | succ m ih =>
    intro s
    rw [Function.iterate_succ_apply]
    exact (hinfl s).trans (ih (f s))

theorem iterate_bounded (f : Finset Nat → Finset Nat) (B : Finset Nat)
    (hbd : ∀ s, s ⊆ B → f s ⊆ B) :
    ∀ (n : Nat) (s : Finset Nat), s ⊆ B → Nat.iterate f n s ⊆ B := by
  intro n
  induction n with
  | zero => intro s hs; exact hs
  | succ m ih =>
    intro s hs
    rw [Function.iterate_succ_apply]
    exact ih (f s) (hbd s hs)

theorem iterate_stable (f : Finset Nat → Finset Nat) (B : Finset Nat)
    (hinfl : ∀ s, s ⊆ f s) (hbd : ∀ s, s ⊆ B → f s ⊆ B)
    (s0 : Finset Nat) (h0 : s0 ⊆ B) (hne : s0.Nonempty) :
    f (Nat.iterate f B.card s0) = Nat.iterate f B.card s0 := by
  by_contra hne2
  have hstep : ∀ k, k ≤ B.card → f (Nat.iterate f k s0) ≠ Nat.iterate f k s0 := by
    intro k hk hfix
    apply hne2
    have heq : Nat.iterate f B.card s0 = Nat.iterate f k s0 := by
      have hsplit : B.card = (B.card - k) + k := by omega
      rw [hsplit, Function.iterate_add_apply, Function.iterate_fixed hfix]
    rw [heq]
    exact hfix
  have hcard : ∀ k, k ≤ B.card → k + s0.card ≤ (Nat.iterate f k s0).card := by
    intro k
    induction k with
    | zero => intro _; simp
    | succ m ih =>
      intro hk
      have hm := ih (by omega)
      have hss : Nat.iterate f m s0 ⊂ f (Nat.iterate f m s0) :=
        Finset.ssubset_iff_subset_ne.mpr
          ⟨hinfl _, fun h => hstep m (by omega) h.symm⟩
      have hlt := Finset.card_lt_card hss
      rw [Function.iterate_succ_apply']
      omega
  have h1 := hcard B.card le_rfl
  have h2 : (Nat.iterate f B.card s0).card ≤ B.card :=
    Finset.card_le_card (iterate_bounded f B hbd B.card s0 h0)
  have h3 : 0 < s0.card := Finset.card_pos.mpr hne
  omega

theorem cascadeStep_infl (p : PipeLine) : ∀ s, s ⊆ cascadeStep p s := by
  intro s
  exact Finset.subset_union_left

theorem consumerIdxsOf_lt (p : PipeLine) (j q : Nat) (hq : q ∈ consumerIdxsOf p j) :
    q < p.processList.length := by
  unfold consumerIdxsOf at hq
  cases hnd : p.nodeList.get? j with
  | none => rw [hnd] at hq; cases hq
  | some nd =>
    rw [hnd] at hq
    have hf := List.mem_filter.mp hq
    simpa using hf.2

theorem cascadeStep_bounded (p : PipeLine) (s : Finset Nat)
    (hs : s ⊆ Finset.range p.processList.length) :
    cascadeStep p s ⊆ Finset.range p.processList.length := by
  unfold cascadeStep
  apply Finset.union_subset hs
  intro x hx
  rw [Finset.mem_biUnion] at hx
  obtain ⟨i, _, hxi⟩ := hx
  unfold consumersOfOutputs at hxi
  rw [Finset.mem_biUnion] at hxi
  obtain ⟨j, _, hxj⟩ := hxi
  rw [List.mem_toFinset] at hxj
  rw [Finset.mem_range]
  exact consumerIdxsOf_lt p j x hxj

theorem cascadeSet_subset_range (p : PipeLine) (ipos : Nat)
    (hip : ipos < p.processList.length) :
    cascadeSet p ipos ⊆ Finset.range p.processList.length := by
  unfold cascadeSet
  apply iterate_bounded (cascadeStep p) (Finset.range p.processList.length)
    (cascadeStep_bounded p)
  rw [Finset.singleton_subset_iff, Finset.mem_range]
  exact hip

theorem cascadeSet_fixed (p : PipeLine) (ipos : Nat) (hip : ipos < p.processList.length) :
    cascadeStep p (cascadeSet p ipos) = cascadeSet p ipos := by
  unfold cascadeSet
  rw [show p.processList.length = (Finset.range p.processList.length).card from
    (Finset.card_range _).symm]
  apply iterate_stable (cascadeStep p) (Finset.range p.processList.length)
    (cascadeStep_infl p) (cascadeStep_bounded p)
  · rw [Finset.singleton_subset_iff, Finset.mem_range]
    exact hip
  · exact Finset.singleton_nonempty _

theorem mem_cascadeSet_self (p : PipeLine) (ipos : Nat) : ipos ∈ cascadeSet p ipos := by
  unfold cascadeSet
  exact iterate_subset (cascadeStep p) (cascadeStep_infl p) p.processList.length {ipos}
    (Finset.mem_singleton_self ipos)

theorem cascadeSet_closed_step (p : PipeLine) (ipos : Nat)
    (hip : ipos < p.processList.length) {i j q : Nat} (hi : i ∈ cascadeSet p ipos)
    (hj : j ∈ outputIdxsOf p i) (hq : q ∈ consumerIdxsOf p j) :
    q ∈ cascadeSet p ipos := by
  rw [← cascadeSet_fixed p ipos hip]
  unfold cascadeStep
  rw [Finset.mem_union]
  right
  rw [Finset.mem_biUnion]
  refine ⟨i, hi, ?_⟩
  unfold consumersOfOutputs
  rw [Finset.mem_biUnion]
  exact ⟨j, List.mem_toFinset.mpr hj, List.mem_toFinset.mpr hq⟩

theorem mustDelete_mem_cascadeSet (p : PipeLine) (ipos q : Nat)
    (hip : ipos < p.processList.length) (h : MustDelete p ipos q) :
    q ∈ cascadeSet p ipos := by
  induction h with
  | base => exact mem_cascadeSet_self p ipos
  | step h1 hj hq ih => exact cascadeSet_closed_step p ipos hip ih hj hq

theorem countKept_eq_filter (del : Nat → Bool) :
    ∀ (n k : Nat), countKept del k n
      = ((List.range n).filter (fun m => !del (k + m))).length := by
  intro n
  induction n with
  | zero => intro k; rfl
  | succ m ih =>
    intro k
    show (if del k then 0 else 1) + countKept del (k + 1) m = _
    rw [List.range_succ_eq_map, List.filter_cons, List.filter_map]
    have hcongr : (List.range m).filter ((fun x => !del (k + x)) ∘ Nat.succ)
        = (List.range m).filter (fun x => !del ((k + 1) + x)) :=
      List.filter_congr (fun x _ => by
        show (!del (k + (x + 1))) = (!del ((k + 1) + x))
        rw [show k + (x + 1) = (k + 1) + x by omega])
    rw [hcongr, ih (k + 1)]
    by_cases hd : del k
    · rw [if_pos hd, if_neg (by simp [hd])]
      rw [List.length_map]
      omega
    · rw [if_neg hd, if_pos (by simp [hd])]
      rw [List.length_cons, List.length_map]
      omega

theorem countKept_zero_eq_filter (del : Nat → Bool) (n : Nat) :
    countKept del 0 n = ((List.range n).filter (fun m => !del m)).length := by
  rw [countKept_eq_filter del n 0]
  apply congrArg List.length
  exact List.filter_congr (fun x _ => by rw [Nat.zero_add])

theorem filter_notmem_length (S : Finset Nat) (n : Nat) (hS : S ⊆ Finset.range n) :
    ((List.range n).filter (fun m => !decide (m ∈ S))).length + S.card = n := by
  have hnd : ((List.range n).filter (fun m => !decide (m ∈ S))).Nodup :=
    (List.nodup_range n).filter _
  have hfin : ((List.range n).filter (fun m => !decide (m ∈ S))).toFinset
      = Finset.range n \ S := by
    ext x
    rw [List.mem_toFinset, List.mem_filter, List.mem_range, Finset.mem_sdiff,
      Finset.mem_range]
    simp
  have hlen : ((List.range n).filter (fun m => !decide (m ∈ S))).length
      = (Finset.range n \ S).card := by
    rw [← hfin, List.toFinset_card_of_nodup hnd]
  rw [hlen, Finset.card_sdiff hS, Finset.card_range]
  have hle : S.card ≤ n := by
    have := Finset.card_le_card hS
    simpa [Finset.card_range] using this
  omega

/-- C6: cascading deletion removes the seed process and, transitively, every
process that consumes an output node of a removed process, together with the
output nodes of every removed process: every process the spec marks for
deletion (`MustDelete`) lands in the computed cascade set, its output nodes
land in the deleted-node set, the surviving process count is the total minus
the cascade set, and in the section-8 two-process scenario deleting `A`
cascadingly leaves zero nodes and zero processes. -/
theorem deleteProcess_cascade (p : PipeLine) (ipos q : Nat)
    (hip : ipos < p.processList.length) (hmd : MustDelete p ipos q) :
    q ∈ cascadeSet p ipos ∧
    (∀ j ∈ outputIdxsOf p q, j ∈ delNodeSet p (cascadeSet p ipos)) ∧
    (deleteProcess p ipos true).processList.length + (cascadeSet p ipos).card
        = p.processList.length ∧
    ((deleteProcess scenarioPipeline 0 true).nodeList = [] ∧
      (deleteProcess scenarioPipeline 0 true).processList = []) := by
  have hq := mustDelete_mem_cascadeSet p ipos q hip hmd
  refine ⟨hq, ?_, ?_, by decide⟩
  · intro j hj
    unfold delNodeSet
    rw [Finset.mem_biUnion]
    exact ⟨q, hq, List.mem_toFinset.mpr hj⟩
  · have hred : deleteProcess p ipos true
        = compact p (delNodeSet p (cascadeSet p ipos)) (cascadeSet p ipos) := by
      unfold deleteProcess
      rw [if_pos hip]
      rfl
    have hlen : (deleteProcess p ipos true).processList.length
        = countKept (fun i => decide (i ∈ cascadeSet p ipos)) 0 p.processList.length := by
      rw [hred]
      exact keepMap_length _ _ 0 _
    rw [hlen, countKept_zero_eq_filter]
    exact filter_notmem_length (cascadeSet p ipos) p.processList.length
      (cascadeSet_subset_range p ipos hip)

theorem deleteProcess_cascade_witness :
    1 ∈ cascadeSet scenarioPipeline 0 ∧
      (deleteProcess scenarioPipeline 0 true).processList = [] :=
  ⟨(deleteProcess_cascade scenarioPipeline 0 1 (by decide)
      (@MustDelete.step scenarioPipeline 0 0 0 1 MustDelete.base (by decide) (by decide))).1,
   (deleteProcess_cascade scenarioPipeline 0 1 (by decide)
      (@MustDelete.step scenarioPipeline 0 0 0 1 MustDelete.base (by decide) (by decide))).2.2.2.2⟩

theorem countKept_false {del : Nat → Bool} (h : ∀ m, del m = false) :
    ∀ (j k : Nat), countKept del k j = j := by
  intro j
  induction j with
  | zero => intro k; rfl
  | succ m ih =>
    intro k
    show (if del k then 0 else 1) + countKept del (k + 1) m = m + 1
    rw [if_neg (by rw [h k]; exact Bool.false_ne_true), ih (k + 1)]
    omega

theorem remapIdx_empty (h : Nat) : remapIdx ∅ h = h := by
  unfold remapIdx
  exact countKept_false (fun m => decide_eq_false (Finset.not_mem_empty m)) h 0

theorem fixHandle_empty (len h : Nat) (hl : h < len) : fixHandle ∅ len h = some h := by
  unfold fixHandle
  rw [if_pos ⟨hl, Finset.not_mem_empty h⟩, remapIdx_empty]

theorem filterMap_all_some {α : Type _} {f : α → Option α} :
    ∀ {l : List α}, (∀ a ∈ l, f a = some a) → l.filterMap f = l := by
  intro l
  induction l with
  | nil => intro _; rfl
  | cons a tl ih =>
    intro h
    rw [List.filterMap_cons, h a (List.mem_cons_self a tl),
      ih (fun x hx => h x (List.mem_cons_of_mem a hx))]

theorem flagsToFinset_nil : flagsToFinset [] = (∅ : Finset Nat) := rfl

theorem write_nil_nodeTable (p : PipeLine) :
    (write p [] []).nodeTable
      = p.nodeList.map (nodeRecordOf ∅ p.processList.length) := by
  show keepMap (fun j => decide (j ∈ flagsToFinset [])) _ 0 p.nodeList = _
  exact keepMap_all_false _
    (fun j => decide_eq_false (by rw [flagsToFinset_nil]; exact Finset.not_mem_empty j))
    0 p.nodeList

theorem write_nil_processTable (p : PipeLine)
    (hHandles : ∀ pr ∈ p.processList, ∀ h ∈ pr.inputNodeList ++ pr.outputNodeList,
      h < p.nodeList.length) :
    (write p [] []).processTable = procTableOf p := by
  have h1 : (write p [] []).processTable
      = p.processList.map (processRecordOf ∅ p.nodeList.length) := by
    show keepMap (fun i => decide (i ∈ flagsToFinset [])) _ 0 p.processList = _
    exact keepMap_all_false _
      (fun i => decide_eq_false (by rw [flagsToFinset_nil]; exact Finset.not_mem_empty i))
      0 p.processList
  rw [h1]
  unfold procTableOf
  apply List.map_congr_left
  intro pr hpr
  unfold processRecordOf
  have hin : pr.inputNodeList.filterMap (fixHandle ∅ p.nodeList.length)
      = pr.inputNodeList :=
    filterMap_all_some (fun h hh =>
      fixHandle_empty _ h (hHandles pr hpr h (List.mem_append.mpr (Or.inl hh))))
  have hout : pr.outputNodeList.filterMap (fixHandle ∅ p.nodeList.length)
      = pr.outputNodeList :=
    filterMap_all_some (fun h hh =>
      fixHandle_empty _ h (hHandles pr hpr h (List.mem_append.mpr (Or.inr hh))))
  rw [hin, hout]

theorem buildNodes_length (tbl : List ProcessRecord) :
    ∀ (nTbl : List NodeRecord) (k : Nat), (buildNodes tbl k nTbl).length = nTbl.length := by
  intro nTbl
  induction nTbl with
  | nil => intro k; rfl
  | cons r rest ih =>
    intro k
    show (buildNodes tbl (k + 1) rest).length + 1 = rest.length + 1
    rw [ih (k + 1)]

theorem buildNodes_map_name (tbl : List ProcessRecord) :
    ∀ (nTbl : List NodeRecord) (k : Nat),
      (buildNodes tbl k nTbl).map Node.name = nTbl.map NodeRecord.name := by
  intro nTbl
  induction nTbl with
  | nil => intro k; rfl
  | cons r rest ih =>
    intro k
    show r.name :: (buildNodes tbl (k + 1) rest).map Node.name = _
    rw [ih (k + 1)]
    rfl

theorem buildNodes_map_type (tbl : List ProcessRecord) :
    ∀ (nTbl : List NodeRecord) (k : Nat),
      (buildNodes tbl k nTbl).map Node.type = nTbl.map NodeRecord.type := by
  intro nTbl
  induction nTbl with
  | nil => intro k; rfl
  | cons r rest ih =>
    intro k
    show r.type :: (buildNodes tbl (k + 1) rest).map Node.type = _
    rw [ih (k + 1)]
    rfl

theorem buildNodes_get? (tbl : List ProcessRecord) :
    ∀ (nTbl : List NodeRecord) (k m : Nat),
      (buildNodes tbl k nTbl).get? m
        = (nTbl.get? m).map (fun r => nodeFromTables tbl (k + m) r) := by
  intro nTbl
  induction nTbl with
  | nil => intro k m; rfl
  | cons r rest ih =>
    intro k m
    cases m with
    | zero => rfl
    | succ m2 =>
      show (buildNodes tbl (k + 1) rest).get? m2 = _
      rw [ih (k + 1) m2]
      simp only [show (k + 1) + m2 = k + (m2 + 1) by omega]
      rfl

theorem find?_unique (pred : Nat → Bool) (q0 : Nat) :
    ∀ (l : List Nat), q0 ∈ l → pred q0 = true →
      (∀ x ∈ l, pred x = true → x = q0) → l.find? pred = some q0 := by
  intro l
  induction l with
  | nil => intro hmem; cases hmem
  | cons a tl ih =>
    intro hmem hq0 huniq
    by_cases ha : pred a = true
    · rw [List.find?_cons_of_pos _ ha, huniq a (List.mem_cons_self a tl) ha]
    · rw [List.find?_cons_of_neg _ (by simpa using ha)]
      apply ih _ hq0 (fun x hx hp => huniq x (List.mem_cons_of_mem a hx) hp)
      rcases List.mem_cons.mp hmem with hqa | hmem2
      · exact absurd (hqa ▸ hq0) ha
      · exact hmem2

theorem procTableOf_length (p : PipeLine) :
    (procTableOf p).length = p.processList.length := by
  unfold procTableOf
  exact List.length_map _ _

theorem procTableOf_get? (p : PipeLine) (q : Nat) (hq : q < p.processList.length) :
    (procTableOf p).get? q
      = some { name := (p.processList.get ⟨q, hq⟩).name,
               type := (p.processList.get ⟨q, hq⟩).type,
               status := (p.processList.get ⟨q, hq⟩).status,
               inputs := (p.processList.get ⟨q, hq⟩).inputNodeList,
               outputs := (p.processList.get ⟨q, hq⟩).outputNodeList } := by
  unfold procTableOf
  rw [List.get?_map, List.get?_eq_get hq]
  rfl

theorem producerFromTable_eq (p : PipeLine) (j : Nat) (hj : j < p.nodeList.length)
    (hRange : (p.nodeList.get ⟨j, hj⟩).outputFromProcess = -1 ∨
      (0 ≤ (p.nodeList.get ⟨j, hj⟩).outputFromProcess ∧
        (p.nodeList.get ⟨j, hj⟩).outputFromProcess < (p.processList.length : Int)))
    (hSym : ∀ q (hq : q < p.processList.length),
      ((p.nodeList.get ⟨j, hj⟩).outputFromProcess = (q : Int) ↔
        j ∈ (p.processList.get ⟨q, hq⟩).outputNodeList)) :
    producerFromTable (procTableOf p) j = (p.nodeList.get ⟨j, hj⟩).outputFromProcess := by
  have hkey : ∀ x (hx : x < p.processList.length),
      (((fun q2 => match (procTableOf p).get? q2 with
          | some r => decide (j ∈ r.outputs)
          | none => false) x) = true)
        ↔ j ∈ (p.processList.get ⟨x, hx⟩).outputNodeList := by
    intro x hx
    show ((match (procTableOf p).get? x with
      | some r => decide (j ∈ r.outputs)
      | none => false) = true) ↔ _
    rw [procTableOf_get? p x hx]
    simp
  unfold producerFromTable
  rcases hRange with hneg | hpos
  · have hnone : (List.range (procTableOf p).length).find? (fun q =>
        match (procTableOf p).get? q with
        | some r => decide (j ∈ r.outputs)
        | none => false) = none := by
      rw [List.find?_eq_none]
      intro x hx hpx
      rw [procTableOf_length] at hx
      have hxlt := List.mem_range.mp hx
      have hmem := (hkey x hxlt).mp hpx
      have heq := (hSym x hxlt).mpr hmem
      rw [hneg] at heq
      omega
    rw [hnone, hneg]
  · have hq0lt : (p.nodeList.get ⟨j, hj⟩).outputFromProcess.toNat
        < p.processList.length := by omega
    have hcast : (((p.nodeList.get ⟨j, hj⟩).outputFromProcess.toNat : Nat) : Int)
        = (p.nodeList.get ⟨j, hj⟩).outputFromProcess := Int.toNat_of_nonneg hpos.1
    have hsome : (List.range (procTableOf p).length).find? (fun q =>
        match (procTableOf p).get? q with
        | some r => decide (j ∈ r.outputs)
        | none => false) = some (p.nodeList.get ⟨j, hj⟩).outputFromProcess.toNat := by
      apply find?_unique
      · rw [procTableOf_length]
        exact List.mem_range.mpr hq0lt
      · exact (hkey _ hq0lt).mpr ((hSym _ hq0lt).mp hcast.symm)
      · intro x hx hpx
        rw [procTableOf_length] at hx
        have hxlt := List.mem_range.mp hx
        have heq := (hSym x hxlt).mpr ((hkey x hxlt).mp hpx)
        omega
    rw [hsome]
    exact hcast

theorem consumersFromTable_iff (p : PipeLine) (j : Nat) (hj : j < p.nodeList.length)
    (hConsRange : ∀ q ∈ (p.nodeList.get ⟨j, hj⟩).inputForProcessList,
      q < p.processList.length)
    (hSym : ∀ q (hq : q < p.processList.length),
      (q ∈ (p.nodeList.get ⟨j, hj⟩).inputForProcessList ↔
        j ∈ (p.processList.get ⟨q, hq⟩).inputNodeList)) (q : Nat) :
    q ∈ consumersFromTable (procTableOf p) j ↔
      q ∈ (p.nodeList.get ⟨j, hj⟩).inputForProcessList := by
  have hkey : ∀ (hq : q < p.processList.length),
      (((fun q2 => match (procTableOf p).get? q2 with
          | some r => decide (j ∈ r.inputs)
          | none => false) q) = true)
        ↔ j ∈ (p.processList.get ⟨q, hq⟩).inputNodeList := by
    intro hq
    show ((match (procTableOf p).get? q with
      | some r => decide (j ∈ r.inputs)
      | none => false) = true) ↔ _
    rw [procTableOf_get? p q hq]
    simp
  unfold consumersFromTable
  rw [List.mem_filter, List.mem_range, procTableOf_length]
  constructor
  · rintro ⟨hqlt, hpx⟩
    exact (hSym q hqlt).mpr ((hkey hqlt).mp hpx)
  · intro hmem
    have hqlt := hConsRange q hmem
    exact ⟨hqlt, (hkey hqlt).mpr ((hSym q hqlt).mp hmem)⟩

theorem valid_of_consistent (p : PipeLine) (hc : Consistent p) :
    ValidTables (write p [] []) := by
  obtain ⟨hN1, hN2, hHandles, hCons, hRange, hPSym, hCSym, hAcyc⟩ := hc
  have hw1 := write_nil_nodeTable p
  have hw2 := write_nil_processTable p hHandles
  refine ⟨?_, ?_, ?_, ?_, ?_⟩
  · rw [hw1, List.map_map]
    have hcongr : p.nodeList.map
        (NodeRecord.name ∘ nodeRecordOf ∅ p.processList.length)
        = p.nodeList.map Node.name := List.map_congr_left (fun a _ => rfl)
    rw [hcongr]
    exact hN1
  · rw [hw2]
    unfold procTableOf
    rw [List.map_map]
    have hcongr : p.processList.map (ProcessRecord.name ∘ fun pr =>
        ({ name := pr.name, type := pr.type, status := pr.status,
           inputs := pr.inputNodeList, outputs := pr.outputNodeList } : ProcessRecord))
        = p.processList.map Process.name := List.map_congr_left (fun a _ => rfl)
    rw [hcongr]
    exact hN2
  · rw [hw1, hw2]
    intro r hr h hh
    unfold procTableOf at hr
    obtain ⟨pr, hpr, rfl⟩ := List.mem_map.mp hr
    rw [List.length_map]
    exact hHandles pr hpr h hh
  · rw [hw2]
    intro q1 h1 q2 h2 jj hj1 hj2
    have h1p : q1 < p.processList.length := by
      have := h1
      rw [procTableOf_length] at this
      exact this
    have h2p : q2 < p.processList.length := by
      have := h2
      rw [procTableOf_length] at this
      exact this
    have hget1 : ((procTableOf p).get ⟨q1, h1⟩).outputs
        = (p.processList.get ⟨q1, h1p⟩).outputNodeList := by
      have hx := List.get?_eq_get h1
      rw [procTableOf_get? p q1 h1p] at hx
      rw [← Option.some_inj.mp hx]
    have hget2 : ((procTableOf p).get ⟨q2, h2⟩).outputs
        = (p.processList.get ⟨q2, h2p⟩).outputNodeList := by
      have hx := List.get?_eq_get h2
      rw [procTableOf_get? p q2 h2p] at hx
      rw [← Option.some_inj.mp hx]
    rw [hget1] at hj1
    rw [hget2] at hj2
    have hjlt : jj < p.nodeList.length :=
      hHandles _ (List.get_mem _ _ _) jj (List.mem_append.mpr (Or.inr hj1))
    have he1 := (hPSym jj hjlt q1 h1p).mpr hj1
    have he2 := (hPSym jj hjlt q2 h2p).mpr hj2
    rw [he1] at he2
    exact_mod_cast he2
  · rw [hw2]
    exact hAcyc

/-- C2: on a graph satisfying the section-3 invariants, `write` with empty
exclusion sets followed by `read` reproduces the graph: the read succeeds,
the display name and the whole process list (names, types, statuses and
forward edge lists) are reproduced exactly (the handle remapping is the
identity because nothing is excluded), the node names and types are
reproduced in order, and each node's `producedBy`/`consumedBy`
back-references — rebuilt by `read` solely from the stored forward
input/output lists — agree with the original ones. -/
theorem write_read_roundtrip (p p0 : PipeLine) (hc : Consistent p) :
    ((read p0 (write p [] [])).2 = none) ∧
    ((read p0 (write p [] [])).1.name = p.name) ∧
    ((read p0 (write p [] [])).1.processList = p.processList) ∧
    ((read p0 (write p [] [])).1.nodeList.map Node.name = p.nodeList.map Node.name) ∧
    ((read p0 (write p [] [])).1.nodeList.map Node.type = p.nodeList.map Node.type) ∧
    (∀ j (hj : j < p.nodeList.length),
      ∃ nd2, (read p0 (write p [] [])).1.nodeList.get? j = some nd2 ∧
        nd2.outputFromProcess = (p.nodeList.get ⟨j, hj⟩).outputFromProcess ∧
        (∀ q, q ∈ nd2.inputForProcessList ↔
          q ∈ (p.nodeList.get ⟨j, hj⟩).inputForProcessList)) := by
  obtain ⟨hN1, hN2, hHandles, hCons, hRange, hPSym, hCSym, hAcyc⟩ := hc
  have hvalid := valid_of_consistent p ⟨hN1, hN2, hHandles, hCons, hRange, hPSym, hCSym, hAcyc⟩
  have hw1 := write_nil_nodeTable p
  have hw2 := write_nil_processTable p hHandles
  have hread : read p0 (write p [] [])
      = ({ name := (write p [] []).name,
           nodeList := buildNodes (write p [] []).processTable 0 (write p [] []).nodeTable,
           processList := (write p [] []).processTable.map processFromRecord }, none) := by
    unfold read
    rw [if_pos hvalid]
  refine ⟨by rw [hread], by rw [hread]; rfl, ?_, ?_, ?_, ?_⟩
  · rw [hread]
    show (write p [] []).processTable.map processFromRecord = p.processList
    rw [hw2]
    unfold procTableOf
    rw [List.map_map]
    exact (List.map_congr_left (fun a _ => rfl)).trans (List.map_id p.processList)
  · rw [hread]
    show (buildNodes (write p [] []).processTable 0 (write p [] []).nodeTable).map Node.name
      = p.nodeList.map Node.name
    rw [buildNodes_map_name, hw1, List.map_map]
    exact List.map_congr_left (fun a _ => rfl)
  · rw [hread]
    show (buildNodes (write p [] []).processTable 0 (write p [] []).nodeTable).map Node.type
      = p.nodeList.map Node.type
    rw [buildNodes_map_type, hw1, List.map_map]
    exact List.map_congr_left (fun a _ => rfl)
  · intro j hj
    have hget : (write p [] []).nodeTable.get? j
        = some (nodeRecordOf ∅ p.processList.length (p.nodeList.get ⟨j, hj⟩)) := by
      rw [hw1, List.get?_map, List.get?_eq_get hj]
      rfl
    have hbn := buildNodes_get? (write p [] []).processTable (write p [] []).nodeTable 0 j
    rw [hget] at hbn
    simp only [Nat.zero_add, Option.map_some'] at hbn
    refine ⟨nodeFromTables (write p [] []).processTable j
      (nodeRecordOf ∅ p.processList.length (p.nodeList.get ⟨j, hj⟩)),
      by rw [hread]; exact hbn, ?_, ?_⟩
    · show producerFromTable (write p [] []).processTable j
        = (p.nodeList.get ⟨j, hj⟩).outputFromProcess
      rw [hw2]
      exact producerFromTable_eq p j hj (hRange _ (List.get_mem _ _ _))
        (fun q hq => hPSym j hj q hq)
    · intro q
      show q ∈ consumersFromTable (write p [] []).processTable j ↔ _
      rw [hw2]
      exact consumersFromTable_iff p j hj
        (fun q2 hq2 => hCons _ (List.get_mem _ _ _) q2 hq2)
        (fun q2 hq2 => hCSym j hj q2 hq2) q

theorem write_read_roundtrip_witness :
    Consistent scenarioPipeline ∧
      (read PipeLine.empty (write scenarioPipeline [] [])).2 = none ∧
      (read PipeLine.empty (write scenarioPipeline [] [])).1.processList
        = scenarioPipeline.processList :=
  ⟨by decide,
   (write_read_roundtrip scenarioPipeline PipeLine.empty (by decide)).1,
   (write_read_roundtrip scenarioPipeline PipeLine.empty (by decide)).2.2.1⟩

/-- C9: `read` is atomic on failure: a persisted file whose record set
violates any of the section-3 invariants — a duplicate node or process name,
a forward handle outside the node table, two producers for one node, or a
cyclic producer chain — is rejected with `CorruptPersistedState` and the
live graph is returned exactly as it was, never partially replaced. -/
theorem read_atomic_on_corrupt (p0 : PipeLine) (f : PersistedPipeLine)
    (hbad : ¬(f.nodeTable.map NodeRecord.name).Nodup ∨
      ¬(f.processTable.map ProcessRecord.name).Nodup ∨
      (∃ r ∈ f.processTable, ∃ h ∈ r.inputs ++ r.outputs, f.nodeTable.length ≤ h) ∨
      (∃ q1, ∃ (h1 : q1 < f.processTable.length), ∃ q2,
        ∃ (h2 : q2 < f.processTable.length), q1 ≠ q2 ∧
        ∃ j, j ∈ (f.processTable.get ⟨q1, h1⟩).outputs ∧
          j ∈ (f.processTable.get ⟨q2, h2⟩).outputs) ∨
      HasCycle f.processTable) :
    read p0 f = (p0, some PipeErr.CorruptPersistedState) := by
  have hnv : ¬ValidTables f := by
    intro hv
    obtain ⟨h1, h2, h3, h4, h5⟩ := hv
    rcases hbad with hb | hb | hb | hb | hb
    · exact hb h1
    · exact hb h2
    · obtain ⟨r, hr, h, hh, hge⟩ := hb
      exact absurd (h3 r hr h hh) (by omega)
    · obtain ⟨q1, hq1, q2, hq2, hne, j, hj1, hj2⟩ := hb
      exact hne (h4 q1 hq1 q2 hq2 j hj1 hj2)
    · exact h5 hb
  unfold read
  rw [if_neg hnv]

theorem read_atomic_on_corrupt_witness :
    read scenarioPipeline corruptFile
      = (scenarioPipeline, some PipeErr.CorruptPersistedState) :=
  read_atomic_on_corrupt scenarioPipeline corruptFile (Or.inl (by decide))

end Pipeliner
